import Mathlib

/-!
# Verification of the 30-seconds card generator core

Shallow embedding of the term-resolution, term-supply negotiation and deck
assembly pipeline of the card generator (`App` / `processInputAndGenerate`,
`expandTermList` in the Gemini service, and the `CardPreview` helpers).

JavaScript strings are modelled as Lean `String` (chars as `List Char` where
character-level reasoning is needed).  The nondeterministic shuffle
(`[...terms].sort(() => 0.5 - Math.random())`) is modelled as an explicit
function parameter, and the asynchronous external term provider as an explicit
`ProviderResponse` value describing the outcome of the awaited call.
-/

namespace CardGen

/-- A delimiter character of the term splitter: the regex class `[\n,]`. -/
def isDelim (c : Char) : Bool := c == '\n' || c == ','

/-- Trailing-whitespace trim, helper for `trimChars`. -/
def trimEnd (l : List Char) : List Char :=
  (l.reverse.dropWhile Char.isWhitespace).reverse

/-- Models `String.prototype.trim()`: remove leading and trailing whitespace. -/
def trimChars (l : List Char) : List Char :=
  trimEnd (l.dropWhile Char.isWhitespace)

/-- Splitter automaton for the regex `/[\n,]+/`.  `mode = some acc` means we
are accumulating a token (reversed) in `acc`; `mode = none` means we are
inside a run of delimiters that has already emitted its token boundary. -/
def runsAux (mode : Option (List Char)) : List Char → List (List Char)
  | [] =>
    match mode with
    | some acc => [acc.reverse]
    | none => [[]]
  | c :: cs =>
    match mode with
    | some acc =>
      if isDelim c then acc.reverse :: runsAux none cs
      else runsAux (some (c :: acc)) cs
    | none =>
      if isDelim c then runsAux none cs
      else runsAux (some [c]) cs

/-- Models `s.split(/[\n,]+/)`: split on maximal runs of newline/comma characters,
as JavaScript `String.prototype.split` with a `+`-quantified class does. -/
def splitRuns (cs : List Char) : List (List Char) := runsAux (some []) cs

/-- Split at every single delimiter character (the regex `/[\n,]/` without the
`+`); adjacent delimiters yield interior empty tokens.  This is the alternate
characterisation used to validate `splitRuns`. -/
def everyAux (acc : List Char) : List Char → List (List Char)
  | [] => [acc.reverse]
  | c :: cs =>
    if isDelim c then acc.reverse :: everyAux [] cs
    else everyAux (c :: acc) cs

/-- Single-delimiter splitting, wrapper around `everyAux`. -/
def splitEvery (cs : List Char) : List (List Char) := everyAux [] cs

/-- Models `.map(t => t.trim()).filter(t => t.length > 0)` from the parsing step. -/
def trimFilter (l : List (List Char)) : List (List Char) :=
  (l.map trimChars).filter (fun t => decide (0 < t.length))

/-- The Term Source Resolver, step 1 of `processInputAndGenerate`:

```
if (manualText.trim()) {
  terms = manualText.split(/[\n,]+/).map(t => t.trim()).filter(t => t.length > 0);
}
```
-/
def resolveTerms (s : String) : List String :=
  if trimChars s.data ≠ [] then (trimFilter (splitRuns s.data)).map String.mk
  else []

/-- The resolver as the spec words it: the substrings obtained by splitting on
maximal runs of newline and comma characters, each trimmed, with empty results
removed, in their original order (no truthiness guard on the raw input). -/
def resolveSpec (s : String) : List String :=
  (trimFilter (splitRuns s.data)).map String.mk

/-- Outcome of the awaited External Term Provider call in `expandTermList`:
the call threw (network/parse error), returned a falsy `response.text`, or
returned text that parsed to a JSON array of strings. -/
inductive ProviderResponse where
  | throws : ProviderResponse
  | noText : ProviderResponse
  | parsed (newTerms : List String) : ProviderResponse
deriving DecidableEq, Repr

/-- Models `t.toLowerCase()` character-wise. -/
def lowerStr (s : String) : String := String.mk (s.data.map Char.toLower)

/-- Models `expandTermList(existingTerms, neededTotal)` from the Gemini service used
by the app (the two-argument variant that infers the topic from the sample):

```
const missingCount = neededTotal - existingTerms.length;
if (missingCount <= 0 || existingTerms.length === 0) return existingTerms;
try {
  ... await provider ...
  const text = response.text;
  if (!text) return existingTerms;
  const newTerms = JSON.parse(text) as string[];
  const currentSet = new Set(existingTerms.map(t => t.toLowerCase()));
  const validNewTerms = newTerms.filter(t => !currentSet.has(t.toLowerCase()));
  return [...existingTerms, ...validNewTerms];
} catch (error) { return existingTerms; }
```
-/
def expandTermList (provider : ProviderResponse) (existingTerms : List String)
    (neededTotal : Nat) : List String :=
  if (neededTotal : Int) - existingTerms.length ≤ 0 ∨ existingTerms.length = 0 then
    existingTerms
  else
    match provider with
    | .throws => existingTerms
    | .noText => existingTerms
    | .parsed newTerms =>
      let currentSet := existingTerms.map lowerStr
      existingTerms ++ newTerms.filter (fun t => ! currentSet.contains (lowerStr t))

/-- Models `expandTermList(existingTerms, neededCount, topic)`, the topic-based
variant of the service: same shape, but duplicates are filtered with the
case-sensitive `!existingTerms.includes(t)` and there is no empty-input guard.
The `topic` only affects the prompt, not the merging logic. -/
def expandTermListTopic (provider : ProviderResponse) (existingTerms : List String)
    (neededCount : Nat) (_topic : String) : List String :=
  if (neededCount : Int) - existingTerms.length ≤ 0 then existingTerms
  else
    match provider with
    | .throws => existingTerms
    | .noText => existingTerms
    | .parsed newTerms =>
      existingTerms ++ newTerms.filter (fun t => ! existingTerms.contains t)

/-- The error kinds thrown by `processInputAndGenerate`. -/
inductive GenError where
  | emptyInput : GenError
  | insufficientTerms (needed got : Nat) : GenError
deriving DecidableEq, Repr

/-- Steps 2 and 3 of `processInputAndGenerate` (the Term Supply Negotiator):
empty-pool check, optional AI expansion, and final validation.

```
if (terms.length === 0) throw new Error(...);
const neededTerms = cardCount * termsPerCard;
if (terms.length < neededTerms && useAiFill) {
  terms = await expandTermList(terms, neededTerms);
}
if (terms.length < neededTerms) throw new Error(`Te weinig begrippen. ...`);
```
-/
def negotiateTerms (provider : ProviderResponse) (useAiFill : Bool) (needed : Nat)
    (terms : List String) : Except GenError (List String) :=
  if terms.length = 0 then .error .emptyInput
  else
    let expanded :=
      if terms.length < needed ∧ useAiFill then expandTermList provider terms needed
      else terms
    if expanded.length < needed then .error (.insufficientTerms needed expanded.length)
    else .ok expanded

/-- A generated game card (`GameCard` in `types.ts`). -/
structure GameCard where
  id : String
  category : String
  terms : List String
deriving DecidableEq, Repr

/-- The `while (cardTerms.length < termsPerCard) cardTerms.push("???")`
placeholder padding of the card-creation loop. -/
def padTerms (termsPerCard : Nat) (cardTerms : List String) : List String :=
  cardTerms ++ List.replicate (termsPerCard - cardTerms.length) "???"

/-- Steps 4 and 5 of `processInputAndGenerate` (the Deck Assembler body given
the already-shuffled pool):

```
for (let i = 0; i < cardCount; i++) {
  const start = i * termsPerCard;
  const cardTerms = shuffled.slice(start, start + termsPerCard);
  while (cardTerms.length < termsPerCard) cardTerms.push("???");
  newCards.push({ id: `card-` + i, category: categoryLabel-or-Gemengd fallback, terms: cardTerms });
}
```
-/
def assemble (cardCount termsPerCard : Nat) (categoryLabel : String)
    (shuffled : List String) : List GameCard :=
  (List.range cardCount).map (fun i =>
    { id := "card-" ++ toString i
      category := if categoryLabel = "" then ("Gemengd") else categoryLabel
      terms := padTerms termsPerCard ((shuffled.drop (i * termsPerCard)).take termsPerCard) })

/-- The full generation attempt `processInputAndGenerate` of the app
(`src/unnamed/part_000`), with the random shuffle passed in explicitly. -/
def processInputAndGenerate (manualText : String) (cardCount termsPerCard : Nat)
    (useAiFill : Bool) (categoryLabel : String) (provider : ProviderResponse)
    (shuffle : List String → List String) : Except GenError (List GameCard) :=
  match negotiateTerms provider useAiFill (cardCount * termsPerCard) (resolveTerms manualText) with
  | .error e => .error e
  | .ok ts => .ok (assemble cardCount termsPerCard categoryLabel (shuffle ts))

/-- The three-valued UI mode (`AppState` in `types.ts`). -/
inductive UIMode where
  | input : UIMode
  | generating : UIMode
  | preview : UIMode
deriving DecidableEq, Repr

/-- The slice of React state touched by a generation attempt. -/
structure UiState where
  appState : UIMode
  cards : List GameCard
  errorMsg : Option String
deriving DecidableEq, Repr

/-- The human-readable messages of the two thrown errors. -/
def errorMessage (useAiFill : Bool) : GenError → String
  | .emptyInput => "Voer tenminste één begrip in om te beginnen."
  | .insufficientTerms needed got =>
    "Te weinig begrippen. Nodig: " ++ toString needed ++ ". Je hebt er: " ++
      toString got ++ ". " ++
      (if useAiFill then ("De AI kon niet genoeg aanvullen.")
       else ("Zet \"AI Auto-aanvullen\" aan of voeg meer woorden toe."))

/-- The state transition performed by one generation attempt: on success
`setCards(newCards); setAppState(PREVIEW)` (with the error cleared on entry),
on failure `setError(message); setAppState(INPUT)` with `cards` untouched. -/
def runGeneration (st : UiState) (manualText : String) (cardCount termsPerCard : Nat)
    (useAiFill : Bool) (categoryLabel : String) (provider : ProviderResponse)
    (shuffle : List String → List String) : UiState :=
  match processInputAndGenerate manualText cardCount termsPerCard useAiFill
      categoryLabel provider shuffle with
  | .ok deck => { appState := .preview, cards := deck, errorMsg := none }
  | .error e =>
    { appState := .input, cards := st.cards, errorMsg := some (errorMessage useAiFill e) }

/-- The MVP cycling loop of the earlier `App.tsx` `processInputAndGenerate`
(no topic, not enough terms):

```
let extendedTerms = [...terms];
while (extendedTerms.length < neededTerms) {
  extendedTerms = [...extendedTerms, ...terms];
}
terms = extendedTerms;
```

The loop only runs when `terms` is non-empty (guarded by the preceding
`if (terms.length === 0) throw`), hence the `ht` hypothesis. -/
def cycleAux (terms : List String) (ht : terms ≠ []) (needed : Nat)
    (acc : List String) : List String :=
  if acc.length < needed then cycleAux terms ht needed (acc ++ terms) else acc
termination_by needed - acc.length
decreasing_by
  have h1 : 0 < terms.length := List.length_pos.mpr ht
  simp only [List.length_append]
  omega

/-- Entry point of the cycling fallback: start from one copy of the pool. -/
def cycleTerms (terms : List String) (ht : terms ≠ []) (needed : Nat) : List String :=
  cycleAux terms ht needed terms

/-! ## Basic facts about the Deck Assembler -/

theorem padTerms_length (termsPerCard : Nat) (cardTerms : List String)
    (h : cardTerms.length ≤ termsPerCard) :
    (padTerms termsPerCard cardTerms).length = termsPerCard := by
  simp [padTerms]
  omega

theorem padTerms_eq_self (termsPerCard : Nat) (cardTerms : List String)
    (h : termsPerCard ≤ cardTerms.length) :
    padTerms termsPerCard cardTerms = cardTerms := by
  simp [padTerms, Nat.sub_eq_zero_of_le h]

theorem assemble_length (cardCount termsPerCard : Nat) (categoryLabel : String)
    (shuffled : List String) :
    (assemble cardCount termsPerCard categoryLabel shuffled).length = cardCount := by
  simp [assemble]

theorem assemble_terms_length (cardCount termsPerCard : Nat) (categoryLabel : String)
    (shuffled : List String) :
    ∀ card ∈ assemble cardCount termsPerCard categoryLabel shuffled,
      card.terms.length = termsPerCard := by
  intro card hcard
  simp only [assemble, List.mem_map, List.mem_range] at hcard
  obtain ⟨i, -, rfl⟩ := hcard
  refine padTerms_length _ _ ?_
  simp [List.length_take]

theorem processOk_deck (manualText : String) (cardCount termsPerCard : Nat)
    (useAiFill : Bool) (categoryLabel : String) (provider : ProviderResponse)
    (shuffle : List String → List String) (deck : List GameCard)
    (hok : processInputAndGenerate manualText cardCount termsPerCard useAiFill
      categoryLabel provider shuffle = .ok deck) :
    ∃ ts, deck = assemble cardCount termsPerCard categoryLabel (shuffle ts) := by
  unfold processInputAndGenerate at hok
  cases hneg : negotiateTerms provider useAiFill (cardCount * termsPerCard)
      (resolveTerms manualText) with
  | error e => rw [hneg] at hok; exact absurd hok (by simp)
  | ok ts => rw [hneg] at hok; exact ⟨ts, by injection hok with h; exact h.symm⟩

/-- C1: every successful generation attempt yields exactly `cardCount` cards,
each with exactly `termsPerCard` terms (the padding makes this hold
unconditionally on the length of the shuffled pool). -/
theorem generation_card_invariant (manualText : String) (cardCount termsPerCard : Nat)
    (useAiFill : Bool) (categoryLabel : String) (provider : ProviderResponse)
    (shuffle : List String → List String) (deck : List GameCard)
    (_hcc : 1 ≤ cardCount) (_htpc : 1 ≤ termsPerCard)
    (hok : processInputAndGenerate manualText cardCount termsPerCard useAiFill
      categoryLabel provider shuffle = .ok deck) :
    deck.length = cardCount ∧ ∀ card ∈ deck, card.terms.length = termsPerCard := by
  obtain ⟨ts, rfl⟩ := processOk_deck _ _ _ _ _ _ _ _ hok
  exact ⟨assemble_length _ _ _ _, assemble_terms_length _ _ _ _⟩

/-- Witness for C1 at a concrete successful run. -/
theorem generation_card_invariant_witness :
    processInputAndGenerate ("a,b,c,d") 2 2 false ("") .throws id =
      .ok [⟨"card-0", "Gemengd", ["a", "b"]⟩, ⟨"card-1", "Gemengd", ["c", "d"]⟩] ∧
    ([⟨"card-0", "Gemengd", ["a", "b"]⟩, ⟨"card-1", "Gemengd", ["c", "d"]⟩] :
      List GameCard).length = 2 ∧
    ∀ card ∈ ([⟨"card-0", "Gemengd", ["a", "b"]⟩, ⟨"card-1", "Gemengd", ["c", "d"]⟩] :
      List GameCard), card.terms.length = 2 :=
  ⟨rfl, (generation_card_invariant ("a,b,c,d") 2 2 false ("") .throws id _
    (by decide) (by decide) rfl)⟩

theorem chunk_length (l : List String) (i tpc : Nat) (h : (i + 1) * tpc ≤ l.length) :
    ((l.drop (i * tpc)).take tpc).length = tpc := by
  rw [Nat.succ_mul] at h
  simp [List.length_take, List.length_drop]
  omega

theorem assemble_join (termsPerCard : Nat) (categoryLabel : String) (shuffled : List String) :
    ∀ cardCount, cardCount * termsPerCard ≤ shuffled.length →
      ((assemble cardCount termsPerCard categoryLabel shuffled).map GameCard.terms).flatten =
        shuffled.take (cardCount * termsPerCard) := by
  intro cardCount
  induction cardCount with
  | zero => simp [assemble]
  | succ n ih =>
    intro h
    have hn : n * termsPerCard ≤ shuffled.length := by
      refine le_trans ?_ h
      exact Nat.mul_le_mul_right _ (Nat.le_succ n)
    have hchunk : ((shuffled.drop (n * termsPerCard)).take termsPerCard).length =
        termsPerCard := chunk_length _ _ _ h
    simp only [assemble, List.range_succ, List.map_append, List.map_cons, List.map_nil,
      List.flatten_append, List.flatten_cons, List.flatten_nil, List.append_nil]
    have ihn := ih hn
    simp only [assemble] at ihn
    rw [ihn]
    rw [padTerms_eq_self _ _ (le_of_eq hchunk.symm)]
    rw [← List.take_add]
    rw [Nat.succ_mul]

/-- C3: given the shuffled sequence, partitioning is deterministic — card `i`
holds exactly the window `[i*termsPerCard, (i+1)*termsPerCard)` of the
shuffled sequence, and the cards together use exactly the first
`cardCount*termsPerCard` elements, so any surplus tail is dropped. -/
theorem partition_windows (shuffled : List String) (cardCount termsPerCard : Nat)
    (categoryLabel : String) (hlen : cardCount * termsPerCard ≤ shuffled.length) :
    (∀ i, i < cardCount →
      ((assemble cardCount termsPerCard categoryLabel shuffled).map GameCard.terms)[i]? =
        some ((shuffled.drop (i * termsPerCard)).take termsPerCard)) ∧
    ((assemble cardCount termsPerCard categoryLabel shuffled).map GameCard.terms).flatten =
      shuffled.take (cardCount * termsPerCard) := by
  constructor
  · intro i hi
    have hwin : (i + 1) * termsPerCard ≤ shuffled.length :=
      le_trans (Nat.mul_le_mul_right _ hi) hlen
    simp only [assemble, List.map_map, List.getElem?_map, List.getElem?_range hi,
      Option.map_some', Function.comp_apply]
    rw [padTerms_eq_self _ _ (le_of_eq (chunk_length _ _ _ hwin).symm)]
  · exact assemble_join _ _ _ _ hlen

/-- Witness for C3 at a concrete shuffled pool with a surplus element. -/
theorem partition_windows_witness :
    ((assemble 2 2 ("") ["a", "b", "c", "d", "e"]).map GameCard.terms)[1]? =
      some ((["a", "b", "c", "d", "e"].drop 2).take 2) ∧
    ((assemble 2 2 ("") ["a", "b", "c", "d", "e"]).map GameCard.terms).flatten =
      ["a", "b", "c", "d", "e"].take 4 :=
  ⟨by
    have h := (partition_windows ["a", "b", "c", "d", "e"] 2 2 ("") (by decide)).1 1
      (by decide)
    simpa using h,
   (partition_windows ["a", "b", "c", "d", "e"] 2 2 ("") (by decide)).2⟩

/-! ## Term Supply Negotiator: provider failure, sufficiency, augmentation -/

theorem expand_on_failure (p : ProviderResponse) (ex : List String) (n : Nat)
    (hp : p = .throws ∨ p = .noText) : expandTermList p ex n = ex := by
  unfold expandTermList
  rcases hp with rfl | rfl <;> split <;> rfl

/-- C2: a failed provider call (throw or no parseable text) leaves the pool
unchanged, and a still-short pool then fails with the insufficient-terms
error carrying `needed` and the pre-call pool size — never a provider error. -/
theorem provider_failure_fallback :
    (∀ (ex : List String) (n : Nat),
      expandTermList .throws ex n = ex ∧ expandTermList .noText ex n = ex) ∧
    ∀ (manualText : String) (cardCount termsPerCard : Nat) (categoryLabel : String)
      (provider : ProviderResponse) (shuffle : List String → List String),
      provider = .throws ∨ provider = .noText →
      resolveTerms manualText ≠ [] →
      (resolveTerms manualText).length < cardCount * termsPerCard →
      processInputAndGenerate manualText cardCount termsPerCard true categoryLabel
          provider shuffle =
        .error (.insufficientTerms (cardCount * termsPerCard)
          (resolveTerms manualText).length) := by
  constructor
  · intro ex n
    exact ⟨expand_on_failure _ _ _ (Or.inl rfl), expand_on_failure _ _ _ (Or.inr rfl)⟩
  · intro m cc tpc cat p sh hp hne hlt
    have h0 : ¬ (resolveTerms m).length = 0 := by
      simpa [List.length_eq_zero] using hne
    simp [processInputAndGenerate, negotiateTerms, h0, expand_on_failure _ _ _ hp, hlt]

/-- Witness for C2: one term, two needed, provider throws. -/
theorem provider_failure_fallback_witness :
    processInputAndGenerate ("a") 1 2 true ("") .throws id =
      .error (.insufficientTerms (1 * 2) (resolveTerms ("a")).length) :=
  provider_failure_fallback.2 ("a") 1 2 ("") .throws id (Or.inl rfl)
    (by decide) (by decide)

/-- C6: a pool already at least as long as `needed` passes through the
Negotiator unchanged, with the same result for every provider outcome (the
provider is never consulted), and `expandTermList` returns its input exactly
whenever the missing count is non-positive. -/
theorem sufficient_pool_passthrough :
    (∀ (provider : ProviderResponse) (ex : List String) (n : Nat),
      (n : Int) - ex.length ≤ 0 → expandTermList provider ex n = ex) ∧
    ∀ (pool : List String) (cardCount termsPerCard : Nat) (provider : ProviderResponse)
      (useAiFill : Bool), 1 ≤ cardCount → 1 ≤ termsPerCard →
      cardCount * termsPerCard ≤ pool.length →
      negotiateTerms provider useAiFill (cardCount * termsPerCard) pool = .ok pool := by
  constructor
  · intro p ex n h
    unfold expandTermList
    rw [if_pos (Or.inl h)]
  · intro pool cc tpc p aiF hcc htpc hlen
    have hpos : 0 < cc * tpc := Nat.mul_pos hcc htpc
    have h0 : ¬ pool.length = 0 := by omega
    have hnlt : ¬ pool.length < cc * tpc := by omega
    simp [negotiateTerms, h0, hnlt]

/-- Witness for C6 at a concrete sufficient pool. -/
theorem sufficient_pool_passthrough_witness :
    expandTermList .throws ["a", "b"] 2 = ["a", "b"] ∧
    negotiateTerms (.parsed ["zzz"]) true (1 * 2) ["a", "b"] = .ok ["a", "b"] :=
  ⟨sufficient_pool_passthrough.1 .throws ["a", "b"] 2 (by decide),
   sufficient_pool_passthrough.2 ["a", "b"] 1 2 (.parsed ["zzz"]) true
     (by decide) (by decide) (by decide)⟩

/-- C10: `expandTermList` is append-only — the input list is always a prefix
of the result — and the result is exactly the input when the missing count is
non-positive, when the input is empty, or when the provider yields no text. -/
theorem expand_append_only (provider : ProviderResponse) (existingTerms : List String)
    (neededTotal : Nat) :
    (∃ extra, expandTermList provider existingTerms neededTotal = existingTerms ++ extra) ∧
    (((neededTotal : Int) - existingTerms.length ≤ 0 ∨ existingTerms = [] ∨
        provider = .noText) →
      expandTermList provider existingTerms neededTotal = existingTerms) := by
  constructor
  · unfold expandTermList
    split
    · exact ⟨[], (List.append_nil _).symm⟩
    · cases provider with
      | throws => exact ⟨[], (List.append_nil _).symm⟩
      | noText => exact ⟨[], (List.append_nil _).symm⟩
      | parsed newTerms => exact ⟨_, rfl⟩
  · intro h
    unfold expandTermList
    split
    · rfl
    · rename_i hcond
      rcases h with h | h | h
      · exact absurd (Or.inl h) hcond
      · exact absurd (Or.inr (by simp [h])) hcond
      · subst h; rfl

/-- Witness for C10: empty input comes back unchanged. -/
theorem expand_append_only_witness :
    expandTermList .throws [] 5 = [] :=
  (expand_append_only .throws [] 5).2 (Or.inr (Or.inl rfl))

/-- C5 counterexample: the topic-based `expandTermList` deduplicates with the
case-sensitive `existingTerms.includes(t)`, so a provider term that differs
from an existing term only in case is added to the pool. -/
theorem topic_dedup_case_sensitive_cex :
    expandTermListTopic (.parsed ["appel"]) ["Appel"] 3 ("fruit") = ["Appel", "appel"] ∧
    lowerStr ("appel") = lowerStr ("Appel") ∧ ("appel" : String) ≠ "Appel" := by
  refine ⟨by decide, by decide, by decide⟩

/-- C5 amended: the two-argument `expandTermList` used by the app deduplicates
case-insensitively (no added term matches an existing one ignoring case); the
topic-based variant deduplicates only by exact equality. -/
theorem expand_dedup_caseinsensitive :
    (∀ (newTerms existingTerms : List String) (neededTotal : Nat),
      ∃ extra, expandTermList (.parsed newTerms) existingTerms neededTotal =
          existingTerms ++ extra ∧
        ∀ t ∈ extra, ∀ e ∈ existingTerms, lowerStr e ≠ lowerStr t) ∧
    (∀ (newTerms existingTerms : List String) (neededCount : Nat) (topic : String),
      ∃ extra, expandTermListTopic (.parsed newTerms) existingTerms neededCount topic =
          existingTerms ++ extra ∧ ∀ t ∈ extra, t ∉ existingTerms) := by
  constructor
  · intro newTerms ex n
    unfold expandTermList
    split
    · exact ⟨[], (List.append_nil _).symm, by simp⟩
    · refine ⟨_, rfl, ?_⟩
      intro t ht e he heq
      rw [List.mem_filter] at ht
      have hmem : lowerStr t ∈ ex.map lowerStr := List.mem_map.mpr ⟨e, he, heq⟩
      have helem : ((ex.map lowerStr).contains (lowerStr t)) = true :=
        List.elem_eq_true_of_mem hmem
      rw [helem] at ht
      simp at ht
  · intro newTerms ex n topic
    unfold expandTermListTopic
    split
    · exact ⟨[], (List.append_nil _).symm, by simp⟩
    · refine ⟨_, rfl, ?_⟩
      intro t ht hmem
      rw [List.mem_filter] at ht
      have helem : (ex.contains t) = true := List.elem_eq_true_of_mem hmem
      rw [helem] at ht
      simp at ht

/-- Witness for the amended C5 claim at a concrete pool. -/
theorem expand_dedup_caseinsensitive_witness :
    ∃ extra, expandTermList (.parsed ["appel", "boom"]) ["Appel"] 3 = ["Appel"] ++ extra ∧
      ∀ t ∈ extra, ∀ e ∈ (["Appel"] : List String), lowerStr e ≠ lowerStr t :=
  expand_dedup_caseinsensitive.1 ["appel", "boom"] ["Appel"] 3

/-! ## Atomicity of a generation attempt -/

theorem errorMessage_ne_empty (b : Bool) (e : GenError) : errorMessage b e ≠ "" := by
  intro h
  have hh : (errorMessage b e).data.head? = (("") : String).data.head? := by rw [h]
  cases e with
  | emptyInput =>
    rw [show (errorMessage b .emptyInput).data.head? = some 'V' from rfl] at hh
    exact Option.noConfusion hh
  | insufficientTerms n g =>
    rw [show (errorMessage b (.insufficientTerms n g)).data.head? = some 'T' from rfl] at hh
    exact Option.noConfusion hh

/-- C9: a generation attempt is atomic — it either succeeds with a full deck
of `cardCount` cards, moving the UI to the preview state, or fails, leaving
the previous `cards` untouched and returning to the input state with a
non-empty human-readable message. -/
theorem generation_atomicity (st : UiState) (manualText : String)
    (cardCount termsPerCard : Nat) (useAiFill : Bool) (categoryLabel : String)
    (provider : ProviderResponse) (shuffle : List String → List String) :
    (∃ deck,
      processInputAndGenerate manualText cardCount termsPerCard useAiFill categoryLabel
          provider shuffle = .ok deck ∧
      runGeneration st manualText cardCount termsPerCard useAiFill categoryLabel
          provider shuffle = ⟨.preview, deck, none⟩ ∧
      deck.length = cardCount) ∨
    (∃ e,
      processInputAndGenerate manualText cardCount termsPerCard useAiFill categoryLabel
          provider shuffle = .error e ∧
      runGeneration st manualText cardCount termsPerCard useAiFill categoryLabel
          provider shuffle = ⟨.input, st.cards, some (errorMessage useAiFill e)⟩ ∧
      errorMessage useAiFill e ≠ "") := by
  cases hp : processInputAndGenerate manualText cardCount termsPerCard useAiFill
      categoryLabel provider shuffle with
  | ok deck =>
    left
    obtain ⟨ts, rfl⟩ := processOk_deck _ _ _ _ _ _ _ _ hp
    exact ⟨_, rfl, by simp [runGeneration, hp], assemble_length _ _ _ _⟩
  | error e =>
    right
    exact ⟨e, rfl, by simp [runGeneration, hp], errorMessage_ne_empty _ _⟩

/-! ## The cycling fallback -/

theorem flatten_replicate_length (k : Nat) (t : List String) :
    ((List.replicate k t).flatten).length = k * t.length := by
  induction k with
  | zero => simp
  | succ n ih => simp [List.replicate_succ, ih, Nat.succ_mul]; omega

theorem flatten_replicate_window (k : Nat) :
    ∀ (j : Nat) (t : List String), j < k →
      (((List.replicate k t).flatten.drop (j * t.length)).take t.length) = t := by
  induction k with
  | zero => intro j t hj; omega
  | succ n ih =>
    intro j t hj
    rw [List.replicate_succ, List.flatten_cons]
    cases j with
    | zero =>
      simp [List.take_left]
    | succ j' =>
      have hmul : (j' + 1) * t.length = t.length + j' * t.length := by
        rw [Nat.succ_mul]; omega
      rw [hmul, ← List.drop_drop, List.drop_left]
      exact ih j' t (by omega)

theorem cycleAux_flatten (fuel : Nat) :
    ∀ (terms : List String) (ht : terms ≠ []) (needed : Nat) (acc : List String) (m : Nat),
      needed - acc.length ≤ fuel →
      acc = (List.replicate m terms).flatten →
      ∃ k, m ≤ k ∧ cycleAux terms ht needed acc = (List.replicate k terms).flatten ∧
        needed ≤ (cycleAux terms ht needed acc).length := by
  induction fuel with
  | zero =>
    intro terms ht needed acc m hf hacc
    have hge : ¬ acc.length < needed := by omega
    rw [cycleAux, if_neg hge]
    exact ⟨m, le_refl m, hacc, by omega⟩
  | succ n ih =>
    intro terms ht needed acc m hf hacc
    rw [cycleAux]
    by_cases hlt : acc.length < needed
    · rw [if_pos hlt]
      have hpos : 0 < terms.length := List.length_pos.mpr ht
      have hacc' : acc ++ terms = (List.replicate (m + 1) terms).flatten := by
        rw [List.replicate_succ', List.flatten_append, hacc]
        simp
      have hf' : needed - (acc ++ terms).length ≤ n := by
        simp only [List.length_append]
        omega
      obtain ⟨k, hk, heq, hlen⟩ := ih terms ht needed (acc ++ terms) (m + 1) hf' hacc'
      exact ⟨k, by omega, heq, hlen⟩
    · rw [if_neg hlt]
      exact ⟨m, le_refl m, hacc, by omega⟩

/-- C4: for a non-empty pool shorter than `needed`, the MVP cycling loop
produces some whole number `k ≥ 1` of end-to-end copies of the original
sequence, of total length at least `needed`; in particular the result
restricted to any repetition window equals the original sequence. -/
theorem cycling_preserves_sequence (terms : List String) (ht : terms ≠ []) (needed : Nat)
    (hshort : terms.length < needed) :
    ∃ k, 1 ≤ k ∧ cycleTerms terms ht needed = (List.replicate k terms).flatten ∧
      needed ≤ (cycleTerms terms ht needed).length ∧
      ∀ j, j < k →
        (((cycleTerms terms ht needed).drop (j * terms.length)).take terms.length) = terms := by
  have hstart : terms = (List.replicate 1 terms).flatten := by simp
  obtain ⟨k, hk, heq, hlen⟩ :=
    cycleAux_flatten needed terms ht needed terms 1 (by omega) hstart
  refine ⟨k, hk, heq, hlen, ?_⟩
  intro j hj
  rw [show cycleTerms terms ht needed = cycleAux terms ht needed terms from rfl, heq]
  exact flatten_replicate_window k j terms hj

/-- A concrete non-empty pool for the C4 witness. -/
def abPool : List String := ["a", "b"]

theorem abPool_ne_nil : abPool ≠ [] := by decide

/-- Witness for C4 at `terms = ["a", "b"]`, `needed = 5`. -/
theorem cycling_preserves_sequence_witness :
    ∃ k, 1 ≤ k ∧ cycleTerms abPool abPool_ne_nil 5 = (List.replicate k abPool).flatten ∧
      5 ≤ (cycleTerms abPool abPool_ne_nil 5).length ∧
      ∀ j, j < k →
        (((cycleTerms abPool abPool_ne_nil 5).drop (j * abPool.length)).take abPool.length) =
          abPool :=
  cycling_preserves_sequence abPool abPool_ne_nil 5 (by decide)

/-! ## The Term Source Resolver: trimming facts -/

theorem dropWhile_cons_neg (p : Char → Bool) (a : Char) (l : List Char) (h : p a = false) :
    (a :: l).dropWhile p = a :: l := by
  simp [List.dropWhile_cons, h]

theorem dropWhile_shape (p : Char → Bool) (l : List Char) :
    l.dropWhile p = [] ∨ ∃ a t, l.dropWhile p = a :: t ∧ p a = false := by
  induction l with
  | nil => exact Or.inl rfl
  | cons a l ih =>
    by_cases h : p a = true
    · simpa [List.dropWhile_cons, h] using ih
    · have hf : p a = false := by simpa using h
      exact Or.inr ⟨a, l, dropWhile_cons_neg p a l hf, hf⟩

theorem dropWhile_idem (p : Char → Bool) (l : List Char) :
    (l.dropWhile p).dropWhile p = l.dropWhile p := by
  rcases dropWhile_shape p l with h | ⟨a, t, h, hf⟩
  · rw [h]; rfl
  · rw [h, dropWhile_cons_neg p a t hf]

theorem dropWhile_sfx (p : Char → Bool) (l : List Char) :
    ∃ t, l = t ++ l.dropWhile p ∧ ∀ c ∈ t, p c = true := by
  induction l with
  | nil => exact ⟨[], rfl, by simp⟩
  | cons a l ih =>
    by_cases h : p a = true
    · obtain ⟨t, ht, hall⟩ := ih
      refine ⟨a :: t, ?_, ?_⟩
      · rw [List.dropWhile_cons, if_pos h, List.cons_append, ← ht]
      · intro c hc
        rcases List.mem_cons.mp hc with rfl | hc
        · exact h
        · exact hall c hc
    · have hf : p a = false := by simpa using h
      exact ⟨[], by rw [dropWhile_cons_neg p a l hf]; rfl, by simp⟩

theorem trimEnd_pre (l : List Char) :
    ∃ t, l = trimEnd l ++ t ∧ ∀ c ∈ t, c.isWhitespace = true := by
  obtain ⟨t, ht, hall⟩ := dropWhile_sfx Char.isWhitespace l.reverse
  refine ⟨t.reverse, ?_, ?_⟩
  · conv_lhs => rw [← List.reverse_reverse l, ht]
    rw [List.reverse_append]
    rfl
  · intro c hc
    exact hall c (List.mem_reverse.mp hc)

theorem trimEnd_idem (l : List Char) : trimEnd (trimEnd l) = trimEnd l := by
  unfold trimEnd
  rw [List.reverse_reverse, dropWhile_idem]

theorem trim_head_drop (l : List Char) :
    (trimEnd (l.dropWhile Char.isWhitespace)).dropWhile Char.isWhitespace =
      trimEnd (l.dropWhile Char.isWhitespace) := by
  rcases dropWhile_shape Char.isWhitespace l with h | ⟨a, s, h, hf⟩
  · rw [h]; rfl
  · rw [h]
    obtain ⟨t, htu, -⟩ := trimEnd_pre (a :: s)
    rcases hw : trimEnd (a :: s) with - | ⟨b, w⟩
    · rfl
    · rw [hw, List.cons_append] at htu
      injection htu with hab htail
      rw [← hab]
      exact dropWhile_cons_neg _ a w hf

theorem trimChars_idem (l : List Char) : trimChars (trimChars l) = trimChars l := by
  unfold trimChars
  rw [trim_head_drop l, trimEnd_idem]

theorem dropWhile_eq_nil_of_all (p : Char → Bool) (l : List Char)
    (h : ∀ c ∈ l, p c = true) : l.dropWhile p = [] := by
  induction l with
  | nil => rfl
  | cons a l ih =>
    rw [List.dropWhile_cons, if_pos (h a (by simp))]
    exact ih (fun c hc => h c (by simp [hc]))

theorem all_of_dropWhile_eq_nil (p : Char → Bool) (l : List Char)
    (h : l.dropWhile p = []) : ∀ c ∈ l, p c = true := by
  induction l with
  | nil => simp
  | cons a l ih =>
    rw [List.dropWhile_cons] at h
    by_cases ha : p a = true
    · rw [if_pos ha] at h
      intro c hc
      rcases List.mem_cons.mp hc with rfl | hc
      · exact ha
      · exact ih h c hc
    · rw [if_neg ha] at h
      exact absurd h (by simp)

theorem trimChars_eq_nil_iff (l : List Char) :
    trimChars l = [] ↔ ∀ c ∈ l, c.isWhitespace = true := by
  constructor
  · intro h c hc
    unfold trimChars trimEnd at h
    have h2 : (l.dropWhile Char.isWhitespace).reverse.dropWhile Char.isWhitespace = [] := by
      have := congrArg List.reverse h
      simpa using this
    have hall := all_of_dropWhile_eq_nil _ _ h2
    obtain ⟨t, hts, htall⟩ := dropWhile_sfx Char.isWhitespace l
    rw [hts] at hc
    rcases List.mem_append.mp hc with hc | hc
    · exact htall c hc
    · exact hall c (List.mem_reverse.mpr hc)
  · intro h
    unfold trimChars
    rw [dropWhile_eq_nil_of_all _ _ h]
    rfl

/-! ## The Term Source Resolver: splitting facts -/

theorem everyAux_token_mem (cs : List Char) :
    ∀ (acc t : List Char), t ∈ everyAux acc cs → ∀ c ∈ t, c ∈ acc.reverse ∨ c ∈ cs := by
  induction cs with
  | nil =>
    intro acc t ht c hc
    simp only [everyAux, List.mem_singleton] at ht
    subst ht
    exact Or.inl hc
  | cons a cs ih =>
    intro acc t ht c hc
    simp only [everyAux] at ht
    by_cases hd : isDelim a = true
    · rw [if_pos hd] at ht
      rcases List.mem_cons.mp ht with rfl | ht
      · exact Or.inl hc
      · rcases ih [] t ht c hc with h | h
        · simp at h
        · exact Or.inr (by simp [h])
    · rw [if_neg hd] at ht
      rcases ih (a :: acc) t ht c hc with h | h
      · rw [List.reverse_cons] at h
        rcases List.mem_append.mp h with h | h
        · exact Or.inl h
        · simp only [List.mem_singleton] at h
          subst h
          exact Or.inr (by simp)
      · exact Or.inr (by simp [h])

theorem trimFilter_cons (x : List Char) (l : List (List Char)) :
    trimFilter (x :: l) =
      if trimChars x = [] then trimFilter l else trimChars x :: trimFilter l := by
  simp only [trimFilter, List.map_cons, List.filter_cons]
  by_cases h : trimChars x = []
  · simp [h]
  · have hp : 0 < (trimChars x).length := List.length_pos.mpr h
    simp [h, hp]

theorem trimFilter_eq_nil_of_all (l : List (List Char)) (h : ∀ t ∈ l, trimChars t = []) :
    trimFilter l = [] := by
  induction l with
  | nil => rfl
  | cons x l ih =>
    rw [trimFilter_cons, if_pos (h x (by simp))]
    exact ih (fun t ht => h t (by simp [ht]))

theorem runs_every_trimFilter (cs : List Char) :
    (∀ acc, trimFilter (runsAux (some acc) cs) = trimFilter (everyAux acc cs)) ∧
    trimFilter (runsAux none cs) = trimFilter (everyAux [] cs) := by
  induction cs with
  | nil => exact ⟨fun acc => rfl, rfl⟩
  | cons a cs ih =>
    constructor
    · intro acc
      simp only [runsAux, everyAux]
      by_cases hd : isDelim a = true
      · rw [if_pos hd, if_pos hd, trimFilter_cons, trimFilter_cons, ih.2]
      · rw [if_neg hd, if_neg hd]
        exact ih.1 (a :: acc)
    · simp only [runsAux, everyAux]
      by_cases hd : isDelim a = true
      · rw [if_pos hd, if_pos hd, trimFilter_cons, if_pos (by rfl)]
        exact ih.2
      · rw [if_neg hd, if_neg hd]
        exact ih.1 [a]

theorem trimFilter_runs_eq_every (cs : List Char) :
    trimFilter (splitRuns cs) = trimFilter (splitEvery cs) :=
  (runs_every_trimFilter cs).1 []

theorem trimFilter_splitRuns_nil (cs : List Char) (h : trimChars cs = []) :
    trimFilter (splitRuns cs) = [] := by
  have hws := (trimChars_eq_nil_iff cs).mp h
  rw [trimFilter_runs_eq_every]
  refine trimFilter_eq_nil_of_all _ ?_
  intro t ht
  refine (trimChars_eq_nil_iff t).mpr ?_
  intro c hc
  rcases everyAux_token_mem cs [] t ht c hc with hmem | hmem
  · simp at hmem
  · exact hws c hmem

theorem resolveTerms_eq_spec (s : String) : resolveTerms s = resolveSpec s := by
  unfold resolveTerms resolveSpec
  by_cases h : trimChars s.data = []
  · rw [if_neg (by simp [h]), trimFilter_splitRuns_nil s.data h]
    rfl
  · rw [if_pos h]

/-- C7: the resolver returns exactly the substrings obtained by splitting the
raw input on maximal runs of newline/comma characters, trimmed, with empty
results dropped, in order (the `manualText.trim()` truthiness guard is
immaterial); equivalently, splitting at every single delimiter gives the same
result, and every returned term is non-empty and trimmed. -/
theorem resolver_split_trim_filter (s : String) :
    resolveTerms s = resolveSpec s ∧
    resolveTerms s = (trimFilter (splitEvery s.data)).map String.mk ∧
    ∀ t ∈ resolveTerms s, t ≠ "" ∧ trimChars t.data = t.data := by
  refine ⟨resolveTerms_eq_spec s, ?_, ?_⟩
  · rw [resolveTerms_eq_spec s]
    unfold resolveSpec
    rw [trimFilter_runs_eq_every]
  · intro t ht
    rw [resolveTerms_eq_spec s] at ht
    unfold resolveSpec at ht
    rw [List.mem_map] at ht
    obtain ⟨u, hu, rfl⟩ := ht
    unfold trimFilter at hu
    rw [List.mem_filter] at hu
    obtain ⟨hmem, hlen⟩ := hu
    rw [List.mem_map] at hmem
    obtain ⟨v, -, rfl⟩ := hmem
    constructor
    · intro hmk
      have hdata : trimChars v = [] := by
        have := congrArg String.data hmk
        simpa using this
      rw [hdata] at hlen
      simp at hlen
    · show trimChars (trimChars v) = trimChars v
      exact trimChars_idem v

/-- Witness for C7 on a concrete raw input. -/
theorem resolver_split_trim_filter_witness :
    resolveTerms (" a ,b\n") = resolveSpec (" a ,b\n") ∧
    (("a" : String) ≠ "" ∧ trimChars ("a" : String).data = ("a" : String).data) :=
  ⟨(resolver_split_trim_filter (" a ,b\n")).1,
   (resolver_split_trim_filter (" a ,b\n")).2.2 ("a") (by decide)⟩

/-- C8 counterexample: the resolver performs no deduplication — a term pasted
twice appears twice in the candidate list. -/
theorem resolver_duplicates_cex :
    resolveTerms ("a,a") = ["a", "a"] ∧ ¬ (resolveTerms ("a,a")).Nodup :=
  ⟨by decide, by decide⟩

/-- Comma-joining a list of tokens, used to state the C8 round trip. -/
def joinTokens : List (List Char) → List Char
  | [] => []
  | [t] => t
  | t :: ts => t ++ ',' :: joinTokens ts

theorem everyAux_append_nodelim (t : List Char) :
    ∀ (acc cs : List Char), (∀ c ∈ t, isDelim c = false) →
      everyAux acc (t ++ cs) = everyAux (t.reverse ++ acc) cs := by
  induction t with
  | nil => intro acc cs _; simp
  | cons a t ih =>
    intro acc cs h
    have ha : isDelim a = false := h a (by simp)
    rw [List.cons_append]
    simp only [everyAux]
    rw [if_neg (by simp [ha])]
    rw [ih (a :: acc) cs (fun c hc => h c (by simp [hc]))]
    congr 1
    simp

theorem trimFilter_splitEvery_joinTokens :
    ∀ ts : List (List Char),
      (∀ t ∈ ts, t ≠ [] ∧ trimChars t = t ∧ ∀ c ∈ t, isDelim c = false) →
      trimFilter (splitEvery (joinTokens ts)) = ts := by
  intro ts
  induction ts with
  | nil => intro _; rfl
  | cons t ts ih =>
    intro h
    obtain ⟨hne, htrim, hnd⟩ := h t (by simp)
    cases ts with
    | nil =>
      show trimFilter (everyAux [] (joinTokens [t])) = [t]
      rw [show joinTokens [t] = t ++ [] from (List.append_nil t).symm]
      rw [everyAux_append_nodelim t [] [] hnd]
      simp only [everyAux]
      rw [List.append_nil, List.reverse_reverse]
      rw [trimFilter_cons, if_neg (by rw [htrim]; exact hne), htrim]
      rfl
    | cons t' rest =>
      show trimFilter (everyAux [] (joinTokens (t :: t' :: rest))) = t :: t' :: rest
      rw [show joinTokens (t :: t' :: rest) = t ++ ',' :: joinTokens (t' :: rest) from rfl]
      rw [everyAux_append_nodelim t [] _ hnd]
      rw [List.append_nil]
      simp only [everyAux]
      rw [if_pos (by rfl), List.reverse_reverse]
      rw [trimFilter_cons, if_neg (by rw [htrim]; exact hne), htrim]
      have ih' := ih (fun u hu => h u (by simp [hu]))
      unfold splitEvery at ih'
      rw [ih']

/-- C8 amended: the resolver performs no deduplication — any list of
well-formed tokens (non-empty, trimmed, delimiter-free), duplicates included,
comes back verbatim when comma-joined and resolved. -/
theorem resolver_preserves_duplicates (tokens : List String)
    (h : ∀ t ∈ tokens,
      t ≠ "" ∧ trimChars t.data = t.data ∧ ∀ c ∈ t.data, isDelim c = false) :
    resolveTerms (String.mk (joinTokens (tokens.map String.data))) = tokens := by
  rw [resolveTerms_eq_spec]
  unfold resolveSpec
  rw [trimFilter_runs_eq_every]
  rw [show (String.mk (joinTokens (tokens.map String.data))).data =
      joinTokens (tokens.map String.data) from rfl]
  rw [trimFilter_splitEvery_joinTokens (tokens.map String.data) ?hyp]
  · rw [List.map_map, show String.mk ∘ String.data = id from rfl, List.map_id]
  case hyp =>
    intro t ht
    rw [List.mem_map] at ht
    obtain ⟨u, hu, rfl⟩ := ht
    obtain ⟨h1, h2, h3⟩ := h u hu
    refine ⟨?_, h2, h3⟩
    intro hnil
    exact h1 (String.ext hnil)

/-- Witness for the amended C8 claim: a duplicated token survives verbatim. -/
theorem resolver_preserves_duplicates_witness :
    resolveTerms (String.mk (joinTokens ((["a", "a"] : List String).map String.data))) =
      ["a", "a"] :=
  resolver_preserves_duplicates ["a", "a"] (by decide)

end CardGen
